import Mathlib

/-
Verification of the identity-resolution core of delfos-web
(src/delfos/backend/main.py, endpoint get_predictions).

The embedding models:
  * pandas cell values as an inductive Val (null / string / number);
  * a record (one CSV row) as an ordered association list of (field name, value),
    mirroring pandas column order and to_dict(orient="records");
  * the Python dict built by dict(zip(names, ids)) as an ordered association
    list with Python dict semantics (update-in-place on duplicate key, keys
    keep first-insertion order);
  * rapidfuzz fuzz.token_sort_ratio as: whitespace-tokenize, sort tokens,
    join with single spaces, then the normalized InDel ratio
    100 * 2 * LCS(a,b) / (|a| + |b|)  (100 when both strings are empty),
    computed over the rationals (the Python float is a faithful image of this
    rational for the purposes of the properties below);
  * rapidfuzz process.extractOne as a left fold over the choices keeping the
    strictly-greater score (so the first of tied candidates wins), returning
    none on an empty choice sequence (which the unpacking in the Python code
    then turns into a raised TypeError, modelled as PyErr.unpackNone);
  * the endpoint get_predictions as a function on an explicit Store holding
    the day's predictions CSV, the players CSV and the written output
    artifact; FastAPI HTTPException becomes an HErr value (status, detail),
    and an unhandled Python exception during enrichment becomes a 500.
-/

deriving instance DecidableEq for Except

namespace Delfos

/-- Pandas cell value: null (NaN/None), a string, or a number. -/
inductive Val where
  | vnull : Val
  | vstr : String → Val
  | vnum : Int → Val
deriving DecidableEq

/-- One CSV row as pandas sees it: ordered list of (column name, cell). -/
abbrev Record := List (String × Val)

/-- Python pd.isna: true exactly on the null cell. -/
def isna (v : Val) : Bool :=
  match v with
  | .vnull => true
  | _ => false

/-- Inner step of the LCS recursion: rec2 plays the role of lcs as applied
to an arbitrary second list, so that lcsGo a (lcs as) bs = lcs (a :: as) bs. -/
def lcsGo (a : Char) (rec2 : List Char → Nat) : List Char → Nat
  | [] => 0
  | b :: bs => if a = b then rec2 bs + 1 else max (lcsGo a rec2 bs) (rec2 (b :: bs))

/-- Length of a longest common subsequence of two character lists; the InDel
distance underlying rapidfuzz ratio is len a + len b - 2 * lcs a b, so the
normalized similarity is 2 * lcs / (len a + len b). The definition satisfies
the textbook recurrence: lcs (a :: as) (b :: bs) is lcs as bs + 1 when
a = b and max (lcs (a :: as) bs) (lcs as (b :: bs)) otherwise. -/
def lcs : List Char → List Char → Nat
  | [], _ => 0
  | a :: as, bs => lcsGo a (lcs as) bs

/-- rapidfuzz fuzz.ratio: normalized InDel similarity scaled to [0, 100],
with ratio of two empty strings defined as 100 (as rapidfuzz does). -/
def ratio (a b : String) : ℚ :=
  if a.length + b.length = 0 then 100
  else mkRat (200 * (lcs a.data b.data : Int)) (a.length + b.length)

/-- Splitting a character list on whitespace runs, dropping empty fragments;
cur is the (reversed) fragment being accumulated. -/
def splitWsAux : List Char → List Char → List (List Char)
  | [], cur => if cur.isEmpty then [] else [cur.reverse]
  | c :: cs, cur =>
    if c.isWhitespace then
      if cur.isEmpty then splitWsAux cs [] else cur.reverse :: splitWsAux cs []
    else splitWsAux cs (c :: cur)

/-- Python str.split() with no argument: split on whitespace runs, drop
empty fragments. -/
def tokens (s : String) : List String :=
  (splitWsAux s.data []).map (fun cs => String.mk cs)

/-- Lexicographic comparison of character lists by code point, the order
Python sorted() uses on strings. -/
def charListLe : List Char → List Char → Bool
  | [], _ => true
  | _ :: _, [] => false
  | a :: as, b :: bs => if a = b then charListLe as bs else decide (a < b)

/-- Python string comparison: lexicographic on the code points. -/
def strLe (s t : String) : Bool :=
  charListLe s.data t.data

/-- The order relation on strings used to sort tokens. -/
def strOrd (s t : String) : Prop :=
  strLe s t = true

instance : DecidableRel strOrd :=
  fun s t => inferInstanceAs (Decidable (strLe s t = true))

/-- Joining tokens with single spaces, as " ".join does. -/
def joinTokens : List String → String
  | [] => ""
  | [t] => t
  | t :: ts => t ++ " " ++ joinTokens ts

/-- The sorted_split preprocessing of token_sort_ratio: tokenize, sort the
tokens, join with single spaces. -/
def sortTokens (s : String) : String :=
  joinTokens (List.insertionSort strOrd (tokens s))

/-- rapidfuzz fuzz.token_sort_ratio: ratio of the token-sorted strings. -/
def token_sort_ratio (a b : String) : ℚ :=
  ratio (sortTokens a) (sortTokens b)

/-- Fold of process.extractOne over the remaining choices: i is the index of
the head of the remaining list, best the current (choice, score, index);
a later candidate replaces the incumbent only on a strictly greater score,
so the first of tied candidates is kept. -/
def extractOneAux (q : String) : List String → Nat → String × ℚ × Nat → String × ℚ × Nat
  | [], _, best => best
  | c :: cs, i, best =>
    extractOneAux q cs (i + 1)
      (if best.2.1 < token_sort_ratio q c then (c, token_sort_ratio q c, i) else best)

/-- rapidfuzz process.extractOne with scorer token_sort_ratio and no score
cutoff: none on an empty choice sequence, otherwise the best (choice, score,
index) with ties resolved to the earliest choice. -/
def extractOne (q : String) : List String → Option (String × ℚ × Nat)
  | [] => none
  | c :: cs => some (extractOneAux q cs 1 (c, token_sort_ratio q c, 0))

/-- Key view of the Python dict (iteration order = insertion order). -/
def keys (d : List (String × Val)) : List String :=
  d.map Prod.fst

/-- Python d[k] as a partial lookup; none models a raised KeyError. -/
def pyDictGet (d : List (String × Val)) (k : String) : Option Val :=
  (d.find? (fun p => p.1 == k)).map Prod.snd

/-- One step of Python dict construction: assignment d[k] = v updates the
value in place when k is present (keeping its position) and appends
otherwise. -/
def dictUpsert (d : List (String × Val)) (kv : String × Val) : List (String × Val) :=
  if kv.1 ∈ keys d then d.map (fun p => if p.1 = kv.1 then (p.1, kv.2) else p)
  else d ++ [kv]

/-- dict(zip(names, ids)) over the rows of the players CSV: last write wins
for values, first insertion fixes key order. -/
def buildDict (rows : List (String × Val)) : List (String × Val) :=
  rows.foldl dictUpsert []

/-- Python exceptions that can escape get_player_id_fuzzy: unpacking the
None returned by extractOne on an empty choice sequence, a scorer applied to
a non-string query, and a failed dict subscript. -/
inductive PyErr where
  | unpackNone : PyErr
  | typeErr : PyErr
  | keyErr : PyErr
deriving DecidableEq

/-- The source's get_player_id_fuzzy: null query returns None immediately;
otherwise extractOne over the dict keys, unpack its result, and return the
id of the best match when its score is at least 80, else None. Errors model
the Python exceptions the corresponding lines can raise. -/
def get_player_id_fuzzy (dict : List (String × Val)) (name : Val) : Except PyErr Val :=
  match name with
  | .vnull => .ok .vnull
  | .vnum _ =>
    match keys dict with
    | [] => .error .unpackNone
    | _ :: _ => .error .typeErr
  | .vstr s =>
    match extractOne s (keys dict) with
    | none => .error .unpackNone
    | some (m, score, _) =>
      if 80 ≤ score then
        match pyDictGet dict m with
        | some v => .ok v
        | none => .error .keyErr
      else .ok .vnull

/-- get_player_id_fuzzy instrumented with the number of scorer invocations:
extractOne applies the scorer exactly once per candidate; a null query
returns before extractOne is reached; a numeric query reaches the scorer
once (where it raises) unless the choice sequence is empty. -/
def get_player_id_fuzzyI (dict : List (String × Val)) (name : Val) : Except PyErr Val × Nat :=
  match name with
  | .vnull => (.ok .vnull, 0)
  | .vnum _ =>
    match keys dict with
    | [] => (.error .unpackNone, 0)
    | _ :: _ => (.error .typeErr, 1)
  | .vstr _ => (get_player_id_fuzzy dict name, (keys dict).length)

/-- Reading cell k of a row: some cell when the column is present (a
missing value in a present column is the NaN cell vnull), none when the
column is absent. In a pandas frame every row carries every column of the
frame's schema, so per-row absence models a frame whose schema lacks the
column, where the column access df_pred[k] raises KeyError. -/
def lookupField (r : Record) (k : String) : Option Val :=
  (r.find? (fun p => p.1 == k)).map Prod.snd

/-- Pandas column assignment df[k] = v on one row: replace the cell in place
when column k exists (keeping column order), append the column at the end
otherwise. -/
def setColumn (r : Record) (k : String) (v : Val) : Record :=
  if k ∈ r.map Prod.fst then r.map (fun p => if p.1 = k then (p.1, v) else p)
  else r ++ [(k, v)]

/-- One row of df_pred under df_pred['player_'].apply(get_player_id_fuzzy):
reading the player_ cell of a row whose frame lacks the player_ column
raises KeyError at the column access, otherwise the cell is resolved and
the outcome stored in column player_id. -/
def enrichRecord (dict : List (String × Val)) (r : Record) : Except PyErr Record :=
  match lookupField r "player_" with
  | none => .error .keyErr
  | some cell =>
    match get_player_id_fuzzy dict cell with
    | .error e => .error e
    | .ok v => .ok (setColumn r "player_id" v)

/-- df_pred under the apply, row by row in order; the first raised exception
aborts the whole operation, as pandas apply does. -/
def enrichBatch (dict : List (String × Val)) : List Record → Except PyErr (List Record)
  | [] => .ok []
  | r :: rs =>
    match enrichRecord dict r with
    | .error e => .error e
    | .ok r2 =>
      match enrichBatch dict rs with
      | .error e => .error e
      | .ok rs2 => .ok (r2 :: rs2)

/-- The files the endpoint touches for the current date: the predictions
CSV (input batch), the players CSV (registry rows as (name, id) pairs), and
the written enriched artifact predictions_DATE_fotos.csv. -/
structure Store where
  predictions : Option (List Record)
  players : Option (List (String × Val))
  written : Option (List Record)
deriving DecidableEq

/-- An HTTP error as surfaced by FastAPI: status code and detail. -/
structure HErr where
  status : Nat
  detail : String
deriving DecidableEq

/-- The endpoint get_predictions: 404 when the predictions CSV is absent,
500 when the players CSV is absent, otherwise build the name-to-id dict,
enrich every row (an escaped Python exception becomes a 500), write the
enriched batch to the output artifact and return it. The returned Store is
the state of the files after the call. -/
def get_predictions (s : Store) : Except HErr (List Record) × Store :=
  match s.predictions with
  | none => (.error ⟨404, "Predictions not available yet"⟩, s)
  | some batch =>
    match s.players with
    | none => (.error ⟨500, "Players CSV not found"⟩, s)
    | some rows =>
      match enrichBatch (buildDict rows) batch with
      | .error _ => (.error ⟨500, "Internal Server Error"⟩, s)
      | .ok out => (.ok out, { s with written := some out })

/-- String length is the length of the underlying character list. -/
theorem str_length_data (s : String) : s.length = s.data.length :=
  rfl

/-- An LCS step stays below n + 1 when the oracle stays below n. -/
theorem lcsGo_le_succ (a : Char) (rec2 : List Char → Nat) (n : Nat)
    (h : ∀ ys, rec2 ys ≤ n) : ∀ ys, lcsGo a rec2 ys ≤ n + 1 := by
  intro ys
  induction ys with
  | nil => simp [lcsGo]
  | cons b bs ih =>
    simp only [lcsGo]
    split
    · exact Nat.succ_le_succ (h bs)
    · exact max_le ih (le_trans (h _) (Nat.le_succ n))

/-- An LCS is no longer than the first string. -/
theorem lcs_le_left (xs ys : List Char) : lcs xs ys ≤ xs.length := by
  induction xs generalizing ys with
  | nil => simp [lcs]
  | cons a as ih =>
    simp only [lcs, List.length_cons]
    exact lcsGo_le_succ a (lcs as) as.length (fun zs => ih zs) ys

/-- An LCS step is bounded by the second string when the oracle is. -/
theorem lcsGo_le_len (a : Char) (rec2 : List Char → Nat)
    (h : ∀ ys, rec2 ys ≤ ys.length) : ∀ ys, lcsGo a rec2 ys ≤ ys.length := by
  intro ys
  induction ys with
  | nil => simp [lcsGo]
  | cons b bs ih =>
    simp only [lcsGo, List.length_cons]
    split
    · exact Nat.succ_le_succ (h bs)
    · exact max_le (le_trans ih (Nat.le_succ _)) (h (b :: bs))

/-- An LCS is no longer than the second string. -/
theorem lcs_le_right (xs ys : List Char) : lcs xs ys ≤ ys.length := by
  induction xs generalizing ys with
  | nil => simp [lcs]
  | cons a as ih => exact lcsGo_le_len a (lcs as) (fun zs => ih zs) ys

/-- The LCS of a list with itself is the whole list. -/
theorem lcs_self (xs : List Char) : lcs xs xs = xs.length := by
  induction xs with
  | nil => rfl
  | cons a as ih => simp [lcs, lcsGo, ih]

/-- ratio of a string with itself is 100. -/
theorem ratio_self (s : String) : ratio s s = 100 := by
  unfold ratio
  split
  · rfl
  · rename_i h
    rw [Rat.mkRat_eq_div, lcs_self, ← str_length_data]
    have hs : s.length ≠ 0 := by omega
    have hq : ((s.length : ℚ) + (s.length : ℚ)) ≠ 0 := by
      have : (0 : ℚ) < (s.length : ℚ) := by exact_mod_cast Nat.pos_of_ne_zero hs
      positivity
    push_cast
    field_simp
    ring

/-- ratio is never negative. -/
theorem ratio_nonneg (a b : String) : 0 ≤ ratio a b := by
  unfold ratio
  split
  · norm_num
  · rw [Rat.mkRat_eq_div]
    positivity

/-- ratio never exceeds 100. -/
theorem ratio_le_100 (a b : String) : ratio a b ≤ 100 := by
  unfold ratio
  split
  · norm_num
  · rename_i h
    rw [Rat.mkRat_eq_div]
    have hpos : (0 : ℚ) < ((a.length + b.length : ℕ) : ℚ) := by
      exact_mod_cast Nat.pos_of_ne_zero h
    rw [div_le_iff₀ hpos]
    have h1 : lcs a.data b.data ≤ a.data.length := lcs_le_left a.data b.data
    have h2 : lcs a.data b.data ≤ b.data.length := lcs_le_right a.data b.data
    have ha : a.length = a.data.length := rfl
    have hb : b.length = b.data.length := rfl
    have this : 200 * lcs a.data b.data ≤ 100 * (a.length + b.length) := by omega
    calc ((200 * (lcs a.data b.data : Int) : Int) : ℚ)
        = ((200 * lcs a.data b.data : ℕ) : ℚ) := by push_cast; ring
      _ ≤ ((100 * (a.length + b.length) : ℕ) : ℚ) := by exact_mod_cast this
      _ = 100 * ((a.length + b.length : ℕ) : ℚ) := by push_cast; ring

/-- charListLe is total. -/
theorem charListLe_total (xs ys : List Char) :
    charListLe xs ys = true ∨ charListLe ys xs = true := by
  induction xs generalizing ys with
  | nil => exact Or.inl rfl
  | cons a as ih =>
    cases ys with
    | nil => exact Or.inr rfl
    | cons b bs =>
      by_cases hab : a = b
      · subst hab
        simpa [charListLe] using ih bs
      · rcases Ne.lt_or_lt hab with h | h
        · exact Or.inl (by simp [charListLe, hab, h])
        · exact Or.inr (by simp [charListLe, Ne.symm hab, h])

/-- charListLe is transitive. -/
theorem charListLe_trans (xs ys zs : List Char)
    (h1 : charListLe xs ys = true) (h2 : charListLe ys zs = true) :
    charListLe xs zs = true := by
  induction xs generalizing ys zs with
  | nil => rfl
  | cons a as ih =>
    cases ys with
    | nil => simp [charListLe] at h1
    | cons b bs =>
      cases zs with
      | nil => simp [charListLe] at h2
      | cons c cs =>
        by_cases hab : a = b
        · subst hab
          by_cases hbc : a = c
          · subst hbc
            simp only [charListLe, if_pos rfl] at h1 h2 ⊢
            exact ih bs cs h1 h2
          · simp only [charListLe, if_pos rfl] at h1
            simp only [charListLe, if_neg hbc] at h2 ⊢
            exact h2
        · by_cases hbc : b = c
          · subst hbc
            simp only [charListLe, if_neg hab] at h1 ⊢
            exact h1
          · simp only [charListLe, if_neg hab] at h1
            simp only [charListLe, if_neg hbc] at h2
            have hac : a < c := lt_trans (of_decide_eq_true h1) (of_decide_eq_true h2)
            have : a ≠ c := ne_of_lt hac
            simp [charListLe, this, hac]

/-- charListLe is antisymmetric. -/
theorem charListLe_antisymm (xs ys : List Char)
    (h1 : charListLe xs ys = true) (h2 : charListLe ys xs = true) : xs = ys := by
  induction xs generalizing ys with
  | nil =>
    cases ys with
    | nil => rfl
    | cons b bs => simp [charListLe] at h2
  | cons a as ih =>
    cases ys with
    | nil => simp [charListLe] at h1
    | cons b bs =>
      by_cases hab : a = b
      · subst hab
        simp only [charListLe, if_pos rfl] at h1 h2
        rw [ih bs h1 h2]
      · simp only [charListLe, if_neg hab] at h1
        simp only [charListLe, if_neg (Ne.symm hab)] at h2
        exact absurd (of_decide_eq_true h2) (lt_asymm (of_decide_eq_true h1))

instance : IsTotal String strOrd :=
  ⟨fun s t => charListLe_total s.data t.data⟩

instance : IsTrans String strOrd :=
  ⟨fun s t u => charListLe_trans s.data t.data u.data⟩

instance : IsAntisymm String strOrd :=
  ⟨fun s t h1 h2 => by
    cases s with
    | mk ds =>
      cases t with
      | mk dt => exact congrArg String.mk (charListLe_antisymm ds dt h1 h2)⟩

/-- Two strings with the same multiset of tokens sort to the same string. -/
theorem sortTokens_congr {a b : String} (h : List.Perm (tokens a) (tokens b)) :
    sortTokens a = sortTokens b := by
  unfold sortTokens
  have hperm : List.Perm (List.insertionSort strOrd (tokens a))
      (List.insertionSort strOrd (tokens b)) :=
    ((List.perm_insertionSort strOrd (tokens a)).trans h).trans
      (List.perm_insertionSort strOrd (tokens b)).symm
  rw [List.eq_of_perm_of_sorted hperm
    (List.sorted_insertionSort strOrd (tokens a))
    (List.sorted_insertionSort strOrd (tokens b))]

/-- token_sort_ratio of a string with itself is 100. -/
theorem token_sort_ratio_self (s : String) : token_sort_ratio s s = 100 :=
  ratio_self (sortTokens s)

/-- token_sort_ratio is never negative. -/
theorem token_sort_ratio_nonneg (a b : String) : 0 ≤ token_sort_ratio a b :=
  ratio_nonneg (sortTokens a) (sortTokens b)

/-- token_sort_ratio never exceeds 100. -/
theorem token_sort_ratio_le_100 (a b : String) : token_sort_ratio a b ≤ 100 :=
  ratio_le_100 (sortTokens a) (sortTokens b)

/-- Reordering the tokens of the first argument leaves the score unchanged. -/
theorem token_sort_ratio_perm_left {a a2 : String} (b : String)
    (h : List.Perm (tokens a2) (tokens a)) :
    token_sort_ratio a2 b = token_sort_ratio a b := by
  unfold token_sort_ratio
  rw [sortTokens_congr h]

/-- Reordering the tokens of the second argument leaves the score unchanged. -/
theorem token_sort_ratio_perm_right (a : String) {b b2 : String}
    (h : List.Perm (tokens b2) (tokens b)) :
    token_sort_ratio a b2 = token_sort_ratio a b := by
  unfold token_sort_ratio
  rw [sortTokens_congr h]

/-- Characterization of the extractOne fold: starting from incumbent best
at offset i, the fold either keeps the incumbent (and then no remaining
candidate beats it) or lands on the first remaining candidate that strictly
beats the incumbent and every candidate before it, and no candidate beats
the winner. -/
theorem extractOneAux_spec (q : String) (cs : List String) (i : Nat)
    (best : String × ℚ × Nat) :
    (extractOneAux q cs i best = best ∧
      ∀ j, (hj : j < cs.length) → token_sort_ratio q cs[j] ≤ best.2.1) ∨
    (∃ j, ∃ hj : j < cs.length,
      extractOneAux q cs i best = (cs[j], token_sort_ratio q cs[j], i + j) ∧
      best.2.1 < token_sort_ratio q cs[j] ∧
      (∀ j2, (hj2 : j2 < j) → token_sort_ratio q cs[j2] < token_sort_ratio q cs[j]) ∧
      (∀ j2, (hj2 : j2 < cs.length) → token_sort_ratio q cs[j2] ≤ token_sort_ratio q cs[j])) := by
  induction cs generalizing i best with
  | nil =>
    left
    exact ⟨rfl, fun j hj => absurd hj (Nat.not_lt_zero j)⟩
  | cons c cs ih =>
    simp only [extractOneAux]
    by_cases hlt : best.2.1 < token_sort_ratio q c
    · rw [if_pos hlt]
      rcases ih (i + 1) (c, token_sort_ratio q c, i) with ⟨heq, hall⟩ |
        ⟨j, hj, heq, hgt, hfirst, hmax⟩
      · right
        refine ⟨0, Nat.succ_pos cs.length, ?_, ?_, ?_, ?_⟩
        · simpa using heq
        · simpa using hlt
        · intro j2 hj2
          exact absurd hj2 (Nat.not_lt_zero j2)
        · intro j2 hj2
          cases j2 with
          | zero => simp
          | succ k =>
            have hk : k < cs.length := by simpa using hj2
            simpa using hall k hk
      · right
        refine ⟨j + 1, by simpa using Nat.succ_lt_succ hj, ?_, ?_, ?_, ?_⟩
        · have harith : i + 1 + j = i + (j + 1) := by omega
          simpa [harith] using heq
        · have : token_sort_ratio q c < token_sort_ratio q cs[j] := lt_of_le_of_lt (le_refl _) hgt
          simpa using lt_trans hlt hgt
        · intro j2 hj2
          cases j2 with
          | zero => simpa using hgt
          | succ k =>
            have hk : k < j := by omega
            simpa using hfirst k hk
        · intro j2 hj2
          cases j2 with
          | zero => simpa using le_of_lt hgt
          | succ k =>
            have hk : k < cs.length := by simpa using hj2
            simpa using hmax k hk
    · rw [if_neg hlt]
      have hle : token_sort_ratio q c ≤ best.2.1 := le_of_not_lt hlt
      rcases ih (i + 1) best with ⟨heq, hall⟩ | ⟨j, hj, heq, hgt, hfirst, hmax⟩
      · left
        refine ⟨heq, ?_⟩
        intro j2 hj2
        cases j2 with
        | zero => simpa using hle
        | succ k =>
          have hk : k < cs.length := by simpa using hj2
          simpa using hall k hk
      · right
        refine ⟨j + 1, by simpa using Nat.succ_lt_succ hj, ?_, ?_, ?_, ?_⟩
        · have harith : i + 1 + j = i + (j + 1) := by omega
          simpa [harith] using heq
        · simpa using hgt
        · intro j2 hj2
          cases j2 with
          | zero => simpa using lt_of_le_of_lt hle hgt
          | succ k =>
            have hk : k < j := by omega
            simpa using hfirst k hk
        · intro j2 hj2
          cases j2 with
          | zero => simpa using le_trans hle (le_of_lt hgt)
          | succ k =>
            have hk : k < cs.length := by simpa using hj2
            simpa using hmax k hk

/-- extractOne on a nonempty choice sequence returns the candidate with the
maximum score, and on ties the earliest such candidate: every candidate
scores at most the winner, and every candidate strictly before the winner
scores strictly less. -/
theorem extractOne_spec (q c0 : String) (cs0 : List String) :
    ∃ k, ∃ hk : k < (c0 :: cs0).length,
      extractOne q (c0 :: cs0) =
        some ((c0 :: cs0)[k], token_sort_ratio q (c0 :: cs0)[k], k) ∧
      (∀ j, (hj : j < (c0 :: cs0).length) →
        token_sort_ratio q (c0 :: cs0)[j] ≤ token_sort_ratio q (c0 :: cs0)[k]) ∧
      (∀ j, (hj : j < k) →
        token_sort_ratio q (c0 :: cs0)[j] < token_sort_ratio q (c0 :: cs0)[k]) := by
  simp only [extractOne]
  rcases extractOneAux_spec q cs0 1 (c0, token_sort_ratio q c0, 0) with ⟨heq, hall⟩ |
    ⟨j, hj, heq, hgt, hfirst, hmax⟩
  · refine ⟨0, Nat.succ_pos cs0.length, ?_, ?_, ?_⟩
    · simp [heq]
    · intro j hj2
      cases j with
      | zero => simp
      | succ k =>
        have hk : k < cs0.length := by simpa using hj2
        simpa using hall k hk
    · intro j hj2
      exact absurd hj2 (Nat.not_lt_zero j)
  · refine ⟨j + 1, by simpa using Nat.succ_lt_succ hj, ?_, ?_, ?_⟩
    · have harith : 1 + j = j + 1 := by omega
      simp only [heq, harith]
      simp
    · intro j2 hj2
      cases j2 with
      | zero => simpa using le_of_lt hgt
      | succ k =>
        have hk : k < cs0.length := by simpa using hj2
        simpa using hmax k hk
    · intro j2 hj2
      cases j2 with
      | zero => simpa using hgt
      | succ k =>
        have hk : k < j := by omega
        simpa using hfirst k hk

/-- Inverting a successful extractOne: the returned choice sits at the
returned index and the returned score is its score against the query. -/
theorem extractOne_some_inv (q : String) (choices : List String) (m : String)
    (sc : ℚ) (k : Nat) (h : extractOne q choices = some (m, sc, k)) :
    ∃ hk : k < choices.length, m = choices[k] ∧ sc = token_sort_ratio q m := by
  cases choices with
  | nil => simp [extractOne] at h
  | cons c cs =>
    rcases extractOne_spec q c cs with ⟨k2, hk2, heq, hmax, hfirst⟩
    rw [heq] at h
    simp only [Option.some.injEq, Prod.mk.injEq] at h
    rcases h with ⟨hm, hsc, hk⟩
    subst hk
    exact ⟨hk2, hm.symm, by rw [← hsc, hm]⟩

/-- A successful extractOne returns one of the choices. -/
theorem extractOne_some_mem (q : String) (choices : List String) (m : String)
    (sc : ℚ) (k : Nat) (h : extractOne q choices = some (m, sc, k)) :
    m ∈ choices := by
  rcases extractOne_some_inv q choices m sc k h with ⟨hk, hm, hsc⟩
  rw [hm]
  exact List.getElem_mem hk

/-- extractOne returns none exactly on an empty choice sequence. -/
theorem extractOne_isSome (q c0 : String) (cs0 : List String) :
    (extractOne q (c0 :: cs0)).isSome = true := by
  simp [extractOne]

/-- A key present in the dict can be subscripted: the lookup succeeds and
returns one of the dict's values. -/
theorem pyDictGet_of_mem_keys (d : List (String × Val)) (m : String)
    (h : m ∈ keys d) : ∃ v, pyDictGet d m = some v ∧ v ∈ d.map Prod.snd := by
  induction d with
  | nil => simp [keys] at h
  | cons p rest ih =>
    by_cases hm : p.1 = m
    · refine ⟨p.2, ?_, by simp⟩
      unfold pyDictGet
      rw [List.find?_cons_of_pos _ (by simpa using hm)]
      rfl
    · have h2 : m ∈ keys rest := by
        simp only [keys, List.map_cons, List.mem_cons] at h
        rcases h with h | h
        · exact absurd h.symm hm
        · exact h
      rcases ih h2 with ⟨v, hv, hvmem⟩
      refine ⟨v, ?_, by simp [hvmem]⟩
      unfold pyDictGet at hv ⊢
      rw [List.find?_cons_of_neg _ (by simpa using hm)]
      exact hv

/-- Behavior of get_player_id_fuzzy on a string query once extractOne has
produced a result: the 80 threshold is inclusive, an accepted match is the
dict value of the returned choice, and a rejected one yields null. -/
theorem gpif_cases (dict : List (String × Val)) (s m : String) (sc : ℚ) (k : Nat)
    (h : extractOne s (keys dict) = some (m, sc, k)) :
    (80 ≤ sc → ∃ v, pyDictGet dict m = some v ∧
      get_player_id_fuzzy dict (.vstr s) = .ok v ∧ v ∈ dict.map Prod.snd) ∧
    (sc < 80 → get_player_id_fuzzy dict (.vstr s) = .ok .vnull) ∧
    sc = token_sort_ratio s m ∧ m ∈ keys dict := by
  have hmem : m ∈ keys dict := extractOne_some_mem s (keys dict) m sc k h
  rcases extractOne_some_inv s (keys dict) m sc k h with ⟨hk, hm, hsc⟩
  refine ⟨?_, ?_, hsc, hmem⟩
  · intro h80
    rcases pyDictGet_of_mem_keys dict m hmem with ⟨v, hv, hvmem⟩
    refine ⟨v, hv, ?_, hvmem⟩
    simp only [get_player_id_fuzzy]
    rw [h]
    simp only [if_pos h80, hv]
  · intro hlt
    simp only [get_player_id_fuzzy]
    rw [h]
    simp only [if_neg (not_le_of_lt hlt)]

/-- Assigning a column absent from a row appends it at the end. -/
theorem setColumn_not_mem (r : Record) (k : String) (v : Val)
    (h : k ∉ r.map Prod.fst) : setColumn r k v = r ++ [(k, v)] := by
  unfold setColumn
  rw [if_neg h]

/-- A successful enrichment of a row without a player_id column read a
present player_ cell and appended exactly one field, player_id, holding the
resolver's outcome on that cell. -/
theorem enrichRecord_ok_append (d : List (String × Val)) (r out : Record)
    (hnc : "player_id" ∉ r.map Prod.fst) (h : enrichRecord d r = .ok out) :
    ∃ cell v, lookupField r "player_" = some cell ∧
      out = r ++ [("player_id", v)] ∧
      get_player_id_fuzzy d cell = .ok v := by
  simp only [enrichRecord] at h
  cases hf : lookupField r "player_" with
  | none =>
    simp only [hf] at h
    simp at h
  | some cell =>
    simp only [hf] at h
    cases hg : get_player_id_fuzzy d cell with
    | error e =>
      simp only [hg] at h
      simp at h
    | ok v =>
      simp only [hg, Except.ok.injEq] at h
      subst h
      exact ⟨cell, v, rfl, setColumn_not_mem r "player_id" v hnc, hg⟩

/-- A successful batch enrichment keeps the length and enriches row i of the
input into row i of the output, in order. -/
theorem enrichBatch_ok_spec (d : List (String × Val)) (B B2 : List Record)
    (h : enrichBatch d B = .ok B2) :
    B2.length = B.length ∧
    ∀ i, (hi : i < B.length) → (hi2 : i < B2.length) →
      enrichRecord d B[i] = .ok B2[i] := by
  induction B generalizing B2 with
  | nil =>
    simp only [enrichBatch, Except.ok.injEq] at h
    subst h
    exact ⟨rfl, fun i hi hi2 => absurd hi (Nat.not_lt_zero i)⟩
  | cons r rs ih =>
    simp only [enrichBatch] at h
    cases hr : enrichRecord d r with
    | error e =>
      simp only [hr] at h
      simp at h
    | ok r2 =>
      simp only [hr] at h
      cases hb : enrichBatch d rs with
      | error e =>
        simp only [hb] at h
        simp at h
      | ok rs2 =>
        simp only [hb, Except.ok.injEq] at h
        subst h
        rcases ih rs2 hb with ⟨hlen, hget⟩
        refine ⟨by simp [hlen], ?_⟩
        intro i hi hi2
        cases i with
        | zero => simpa using hr
        | succ k =>
          have hk : k < rs.length := by simpa using hi
          have hk2 : k < rs2.length := by simpa using hi2
          simpa using hget k hk hk2

/-- On a nonempty dict, a string query always resolves without an error,
to null or to one of the dict's values. -/
theorem gpif_str_total (d : List (String × Val)) (hne : d ≠ []) (t : String) :
    ∃ v, get_player_id_fuzzy d (.vstr t) = .ok v ∧
      (v = .vnull ∨ v ∈ d.map Prod.snd) := by
  cases d with
  | nil => exact absurd rfl hne
  | cons p rest =>
    rcases extractOne_spec t p.1 (keys rest) with ⟨k, hk, heq, hmax, hfirst⟩
    have heq2 : extractOne t (keys (p :: rest)) =
        some ((p.1 :: keys rest)[k], token_sort_ratio t (p.1 :: keys rest)[k], k) := heq
    rcases gpif_cases (p :: rest) t ((p.1 :: keys rest)[k])
      (token_sort_ratio t (p.1 :: keys rest)[k]) k heq2 with ⟨hacc, hrej, hsc, hmem⟩
    by_cases h80 : 80 ≤ token_sort_ratio t (p.1 :: keys rest)[k]
    · rcases hacc h80 with ⟨v, hv, hok, hvmem⟩
      exact ⟨v, hok, Or.inr hvmem⟩
    · exact ⟨.vnull, hrej (lt_of_not_le h80), Or.inl rfl⟩

/-- A row carrying a mention cell that is null or a string always enriches
without an error against a nonempty dict. -/
theorem enrichRecord_total (d : List (String × Val)) (hne : d ≠ []) (r : Record)
    (hcell : ∃ cell, lookupField r "player_" = some cell ∧
      (cell = .vnull ∨ ∃ t, cell = .vstr t)) :
    ∃ r2, enrichRecord d r = .ok r2 := by
  rcases hcell with ⟨cell, hf, hc | ⟨t, hc⟩⟩
  · subst hc
    refine ⟨setColumn r "player_id" .vnull, ?_⟩
    simp only [enrichRecord, hf]
    rfl
  · subst hc
    rcases gpif_str_total d hne t with ⟨v, hv, hvmem⟩
    refine ⟨setColumn r "player_id" v, ?_⟩
    simp only [enrichRecord, hf, hv]

/-- A batch all of whose rows enrich without an error enriches without an
error, keeping every record. -/
theorem enrichBatch_total (d : List (String × Val)) (B : List Record)
    (h : ∀ r ∈ B, ∃ r2, enrichRecord d r = .ok r2) :
    ∃ B2, enrichBatch d B = .ok B2 ∧ B2.length = B.length := by
  induction B with
  | nil => exact ⟨[], rfl, rfl⟩
  | cons r rs ih =>
    rcases h r (List.mem_cons_self r rs) with ⟨r2, hr⟩
    rcases ih (fun x hx => h x (List.mem_cons_of_mem r hx)) with ⟨rs2, hb, hlen⟩
    refine ⟨r2 :: rs2, ?_, by simp [hlen]⟩
    simp only [enrichBatch, hr, hb]

/-- C1 (counterexample): the code appends a single resolution field,
player_id, not two. On a concrete record the enriched output is the input
plus one field, so it is not the input plus two appended resolution fields
(identifier and match score), whatever their values: no match score field
is ever attached. -/
theorem claim_C1_counterexample :
    enrichRecord [("ab", Val.vstr "P1")] [("player_", Val.vstr "ab")] =
      .ok [("player_", Val.vstr "ab"), ("player_id", Val.vstr "P1")] ∧
    ¬ ∃ p1 p2 : String × Val,
      enrichRecord [("ab", Val.vstr "P1")] [("player_", Val.vstr "ab")] =
        .ok ([("player_", Val.vstr "ab")] ++ [p1, p2]) := by
  have he : enrichRecord [("ab", Val.vstr "P1")] [("player_", Val.vstr "ab")] =
      .ok [("player_", Val.vstr "ab"), ("player_id", Val.vstr "P1")] := by decide
  refine ⟨he, ?_⟩
  rintro ⟨p1, p2, h⟩
  rw [he] at h
  simp only [Except.ok.injEq] at h
  have hlen := congrArg List.length h
  simp at hlen

/-- C1 (amended): for every successfully processed record that does not
already carry a player_id column, the output record equals the input
record's fields plus exactly one appended resolution field, player_id,
holding the resolver's nullable outcome (null when the mention is
unresolved); no match score field is appended. -/
theorem claim_C1 (dict : List (String × Val)) (r out : Record)
    (hnc : "player_id" ∉ r.map Prod.fst) (h : enrichRecord dict r = .ok out) :
    ∃ v, out = r ++ [("player_id", v)] ∧
      ∃ cell, lookupField r "player_" = some cell ∧
        get_player_id_fuzzy dict cell = .ok v := by
  rcases enrichRecord_ok_append dict r out hnc h with ⟨cell, v, hf, happ, hok⟩
  exact ⟨v, happ, cell, hf, hok⟩

/-- C1 (witness): a concrete unresolved mention shows the single appended
player_id field and its null value. -/
theorem claim_C1_witness :
    ∃ v, ([("player_", Val.vstr "zz"), ("player_id", Val.vnull)] : Record) =
        [("player_", Val.vstr "zz")] ++ [("player_id", v)] ∧
      ∃ cell, lookupField [("player_", Val.vstr "zz")] "player_" = some cell ∧
        get_player_id_fuzzy [("ab", Val.vstr "P1")] cell = .ok v :=
  claim_C1 [("ab", Val.vstr "P1")] [("player_", Val.vstr "zz")]
    [("player_", Val.vstr "zz"), ("player_id", Val.vnull)]
    (by decide) (by decide)

/-- C2: a null mention resolves to the null outcome immediately and the
similarity scorer is never invoked on it: the instrumented resolver reports
zero scorer invocations, for every dict. -/
theorem claim_C2 (dict : List (String × Val)) :
    get_player_id_fuzzyI dict .vnull = (.ok .vnull, 0) ∧
    get_player_id_fuzzy dict .vnull = .ok .vnull :=
  ⟨rfl, rfl⟩

/-- C3: the acceptance boundary at the default threshold 80 is inclusive:
with the best score equal to or above 80 the mention resolves to the best
candidate's identifier, with the best score strictly below 80 it resolves
to null, and an accepted score lies in the interval from 80 to 100. -/
theorem claim_C3 (dict : List (String × Val)) (s m : String) (sc : ℚ) (k : Nat)
    (h : extractOne s (keys dict) = some (m, sc, k)) :
    (80 ≤ sc → ∃ v, pyDictGet dict m = some v ∧
      get_player_id_fuzzy dict (.vstr s) = .ok v) ∧
    (sc < 80 → get_player_id_fuzzy dict (.vstr s) = .ok .vnull) ∧
    (80 ≤ sc → 80 ≤ sc ∧ sc ≤ 100) := by
  rcases gpif_cases dict s m sc k h with ⟨hacc, hrej, hsc, hmem⟩
  refine ⟨fun h80 => ?_, hrej, fun h80 => ⟨h80, ?_⟩⟩
  · rcases hacc h80 with ⟨v, hv, hok, hvmem⟩
    exact ⟨v, hv, hok⟩
  · rw [hsc]
    exact token_sort_ratio_le_100 s m

/-- C3 (witness): a concrete exact match scores 100 at index 0 and is
accepted with its registry identifier. -/
theorem claim_C3_witness :
    (80 ≤ (100 : ℚ) → ∃ v, pyDictGet [("ab", Val.vstr "P1")] "ab" = some v ∧
      get_player_id_fuzzy [("ab", Val.vstr "P1")] (.vstr "ab") = .ok v) ∧
    ((100 : ℚ) < 80 →
      get_player_id_fuzzy [("ab", Val.vstr "P1")] (.vstr "ab") = .ok .vnull) ∧
    (80 ≤ (100 : ℚ) → 80 ≤ (100 : ℚ) ∧ (100 : ℚ) ≤ 100) :=
  claim_C3 [("ab", Val.vstr "P1")] "ab" "ab" 100 0 (by decide)

/-- C4: against a nonempty registry dict the resolver's candidate search is
deterministic and first-wins on ties: extractOne returns the candidate at
some index k of the dict's key order whose score no candidate exceeds, and
any candidate scoring equal to the winner sits at index k or later, so a
tie at the maximum is always resolved to the earliest key in registry
iteration order. -/
theorem claim_C4 (dict : List (String × Val)) (hne : dict ≠ []) (q : String) :
    ∃ k, ∃ hk : k < (keys dict).length,
      extractOne q (keys dict) =
        some ((keys dict)[k], token_sort_ratio q (keys dict)[k], k) ∧
      (∀ j, (hj : j < (keys dict).length) →
        token_sort_ratio q (keys dict)[j] ≤ token_sort_ratio q (keys dict)[k]) ∧
      (∀ j, (hj : j < (keys dict).length) →
        token_sort_ratio q (keys dict)[j] = token_sort_ratio q (keys dict)[k] →
        k ≤ j) := by
  cases dict with
  | nil => exact absurd rfl hne
  | cons p rest =>
    rw [show keys (p :: rest) = p.1 :: keys rest from rfl]
    rcases extractOne_spec q p.1 (keys rest) with ⟨k, hk, heq, hmax, hfirst⟩
    refine ⟨k, hk, heq, hmax, ?_⟩
    intro j hj hjeq
    by_contra hlt
    push_neg at hlt
    have := hfirst j hlt
    rw [hjeq] at this
    exact lt_irrefl _ this

/-- C4 (witness): two registry keys tying at the same score for a query;
the resolver's characterization applies with the hypotheses discharged at
this concrete registry. -/
theorem claim_C4_witness :
    ∃ k, ∃ hk : k < (keys [("ab", Val.vstr "P1"), ("ba", Val.vstr "P2")]).length,
      extractOne "ab ba" (keys [("ab", Val.vstr "P1"), ("ba", Val.vstr "P2")]) =
        some ((keys [("ab", Val.vstr "P1"), ("ba", Val.vstr "P2")])[k],
          token_sort_ratio "ab ba"
            (keys [("ab", Val.vstr "P1"), ("ba", Val.vstr "P2")])[k], k) ∧
      (∀ j, (hj : j < (keys [("ab", Val.vstr "P1"), ("ba", Val.vstr "P2")]).length) →
        token_sort_ratio "ab ba" (keys [("ab", Val.vstr "P1"), ("ba", Val.vstr "P2")])[j] ≤
        token_sort_ratio "ab ba" (keys [("ab", Val.vstr "P1"), ("ba", Val.vstr "P2")])[k]) ∧
      (∀ j, (hj : j < (keys [("ab", Val.vstr "P1"), ("ba", Val.vstr "P2")]).length) →
        token_sort_ratio "ab ba" (keys [("ab", Val.vstr "P1"), ("ba", Val.vstr "P2")])[j] =
        token_sort_ratio "ab ba" (keys [("ab", Val.vstr "P1"), ("ba", Val.vstr "P2")])[k] →
        k ≤ j) :=
  claim_C4 [("ab", Val.vstr "P1"), ("ba", Val.vstr "P2")] (by decide) "ab ba"

/-- C5 (counterexample): a missing mention batch and a missing registry do
not fail with a single distinguishable signal: the endpoint surfaces a 404
for the absent predictions file and a 500 for the absent players file, two
distinct errors. -/
theorem claim_C5_counterexample :
    (get_predictions ⟨none, some [("ab", Val.vstr "P1")], none⟩).1 =
      .error ⟨404, "Predictions not available yet"⟩ ∧
    (get_predictions ⟨some [], none, none⟩).1 =
      .error ⟨500, "Players CSV not found"⟩ ∧
    (⟨404, "Predictions not available yet"⟩ : HErr) ≠
      ⟨500, "Players CSV not found"⟩ := by
  refine ⟨rfl, rfl, ?_⟩
  decide

/-- C5 (amended): if the day's mention batch cannot be located the run
fails with the 404 error, if the batch is present but the registry cannot
be located it fails with the 500 error — two distinct surfaced signals,
not one — and in every failing run the store is left untouched: no output
artifact, not even a partial one, is written. -/
theorem claim_C5 (s : Store) :
    (s.predictions = none →
      get_predictions s = (.error ⟨404, "Predictions not available yet"⟩, s)) ∧
    (∀ b, s.predictions = some b → s.players = none →
      get_predictions s = (.error ⟨500, "Players CSV not found"⟩, s)) ∧
    (∀ e, (get_predictions s).1 = .error e → (get_predictions s).2 = s) := by
  refine ⟨?_, ?_, ?_⟩
  · intro h
    simp only [get_predictions, h]
  · intro b hb hpl
    simp only [get_predictions, hb, hpl]
  · intro e he
    rcases hp : s.predictions with _ | b
    · simp only [get_predictions, hp]
    · rcases hpl : s.players with _ | rows
      · simp only [get_predictions, hp, hpl]
      · rcases hb : enrichBatch (buildDict rows) b with e2 | out
        · simp only [get_predictions, hp, hpl, hb]
        · simp only [get_predictions, hp, hpl, hb] at he
          simp at he

/-- C5 (witness): the endpoint run on a store with no predictions file for
the day fails with the 404 error and writes nothing. -/
theorem claim_C5_witness :
    get_predictions ⟨none, some [("ab", Val.vstr "P1")], none⟩ =
      (.error ⟨404, "Predictions not available yet"⟩,
        ⟨none, some [("ab", Val.vstr "P1")], none⟩) :=
  (claim_C5 ⟨none, some [("ab", Val.vstr "P1")], none⟩).1 rfl

/-- C6 (counterexample): against an empty registry the resolver raises:
extractOne returns None and the unpacking fails, so the claim's "for every
registry" is violated by the empty one. -/
theorem claim_C6_counterexample :
    get_player_id_fuzzy [] (.vstr "Messi") = .error .unpackNone := by
  decide

/-- C6 (amended): for every non-null mention string and every NONEMPTY
registry the resolver never raises: it returns a normal outcome, a best
score strictly below the threshold yields the null outcome, and a batch of
rows each carrying a mention cell that is a string or null enriches
completely, keeping every record. -/
theorem claim_C6 (dict : List (String × Val)) (hne : dict ≠ []) (s : String)
    (B : List Record)
    (hcells : ∀ r ∈ B, ∃ cell, lookupField r "player_" = some cell ∧
      (cell = .vnull ∨ ∃ t, cell = .vstr t)) :
    (∃ v, get_player_id_fuzzy dict (.vstr s) = .ok v) ∧
    (∀ m sc k, extractOne s (keys dict) = some (m, sc, k) → sc < 80 →
      get_player_id_fuzzy dict (.vstr s) = .ok .vnull) ∧
    (∃ B2, enrichBatch dict B = .ok B2 ∧ B2.length = B.length) := by
  refine ⟨?_, ?_, ?_⟩
  · rcases gpif_str_total dict hne s with ⟨v, hv, hvm⟩
    exact ⟨v, hv⟩
  · intro m sc k h hlt
    exact (gpif_cases dict s m sc k h).2.1 hlt
  · exact enrichBatch_total dict B (fun r hr => enrichRecord_total dict hne r (hcells r hr))

/-- C6 (witness): a concrete unmatched mention against a nonempty registry
resolves to the null outcome and a one-row batch whose row carries a null
mention cell survives enrichment. -/
theorem claim_C6_witness :
    (∃ v, get_player_id_fuzzy [("ab", Val.vstr "P1")] (.vstr "zz") = .ok v) ∧
    (∀ m sc k, extractOne "zz" (keys [("ab", Val.vstr "P1")]) = some (m, sc, k) →
      sc < 80 →
      get_player_id_fuzzy [("ab", Val.vstr "P1")] (.vstr "zz") = .ok .vnull) ∧
    (∃ B2, enrichBatch [("ab", Val.vstr "P1")] [[("player_", Val.vnull)]] = .ok B2 ∧
      B2.length = ([[("player_", Val.vnull)]] : List Record).length) :=
  claim_C6 [("ab", Val.vstr "P1")] (by decide) "zz" [[("player_", Val.vnull)]]
    (by
      intro r hr
      simp only [List.mem_singleton] at hr
      subst hr
      exact ⟨Val.vnull, rfl, Or.inl rfl⟩)

/-- C7: the similarity score is token-order invariant: reordering the
whitespace tokens of either argument leaves the score unchanged, the two
fixed example strings score as the identical pair does, identical strings
score 100, and every score lies between 0 and 100. -/
theorem claim_C7 :
    (∀ a a2 b b2 : String, List.Perm (tokens a2) (tokens a) →
      List.Perm (tokens b2) (tokens b) →
      token_sort_ratio a2 b2 = token_sort_ratio a b) ∧
    token_sort_ratio "John Smith" "Smith John" =
      token_sort_ratio "John Smith" "John Smith" ∧
    (∀ s : String, token_sort_ratio s s = 100) ∧
    (∀ a b : String, 0 ≤ token_sort_ratio a b ∧ token_sort_ratio a b ≤ 100) := by
  have hperm : ∀ a a2 b b2 : String, List.Perm (tokens a2) (tokens a) →
      List.Perm (tokens b2) (tokens b) →
      token_sort_ratio a2 b2 = token_sort_ratio a b := by
    intro a a2 b b2 h1 h2
    rw [token_sort_ratio_perm_left b2 h1, token_sort_ratio_perm_right a h2]
  refine ⟨hperm, ?_, token_sort_ratio_self,
    fun a b => ⟨token_sort_ratio_nonneg a b, token_sort_ratio_le_100 a b⟩⟩
  exact hperm "John Smith" "John Smith" "John Smith" "Smith John"
    (List.Perm.refl _) (by decide)

/-- C7 (witness): the token-order invariance conjunct applied at a concrete
permuted pair. -/
theorem claim_C7_witness :
    token_sort_ratio "bb aa" "cc" = token_sort_ratio "aa bb" "cc" :=
  claim_C7.1 "aa bb" "bb aa" "cc" "cc" (by decide) (by decide)

/-- C8: the pipeline is deterministic and idempotent: two stores holding
the same batch and registry inputs produce the same endpoint outcome, and
re-running on the store a successful run produced returns the identical
enriched batch and leaves the store unchanged, the written artifact being
exactly the returned batch. -/
theorem claim_C8 (s t : Store) (hp : s.predictions = t.predictions)
    (hpl : s.players = t.players) :
    (get_predictions s).1 = (get_predictions t).1 ∧
    (∀ out s2, get_predictions s = (.ok out, s2) →
      get_predictions s2 = (.ok out, s2) ∧ s2.written = some out) := by
  constructor
  · rcases htp : t.predictions with _ | b
    · rw [htp] at hp
      simp [get_predictions, hp, htp]
    · rw [htp] at hp
      rcases htpl : t.players with _ | rows
      · rw [htpl] at hpl
        simp [get_predictions, hp, hpl, htp, htpl]
      · rw [htpl] at hpl
        rcases hb : enrichBatch (buildDict rows) b with e | out
        · simp [get_predictions, hp, hpl, htp, htpl, hb]
        · simp [get_predictions, hp, hpl, htp, htpl, hb]
  · intro out s2 h
    rcases hsp : s.predictions with _ | b
    · simp only [get_predictions, hsp] at h
      simp at h
    · rcases hspl : s.players with _ | rows
      · simp only [get_predictions, hsp, hspl] at h
        simp at h
      · rcases hb : enrichBatch (buildDict rows) b with e | out2
        · simp only [get_predictions, hsp, hspl, hb] at h
          simp at h
        · simp only [get_predictions, hsp, hspl, hb, Prod.mk.injEq,
            Except.ok.injEq] at h
          rcases h with ⟨hout, hs2⟩
          subst hout
          subst hs2
          refine ⟨?_, rfl⟩
          simp only [get_predictions, hsp, hspl, hb]

/-- C8 (witness): a concrete store run twice through the idempotence
conjunct. -/
theorem claim_C8_witness :
    (get_predictions ⟨some [[("player_", Val.vstr "ab")]],
        some [("ab", Val.vstr "P1")], none⟩).1 =
      (get_predictions ⟨some [[("player_", Val.vstr "ab")]],
        some [("ab", Val.vstr "P1")], none⟩).1 :=
  (claim_C8 ⟨some [[("player_", Val.vstr "ab")]], some [("ab", Val.vstr "P1")], none⟩
    ⟨some [[("player_", Val.vstr "ab")]], some [("ab", Val.vstr "P1")], none⟩
    rfl rfl).1

/-- C9 (counterexample): a record that carries its mention cell and already
carries a player_id column is not passed through unchanged with fields
appended: the code overwrites the existing player_id cell in place (here
with the resolved identifier P1 of the exactly matching mention), so the
output record is not the input record followed by any appended tail. -/
theorem claim_C9_counterexample :
    enrichBatch [("ab", Val.vstr "P1")]
      [[("player_", Val.vstr "ab"), ("player_id", Val.vstr "KEEP")]] =
      .ok [[("player_", Val.vstr "ab"), ("player_id", Val.vstr "P1")]] ∧
    ¬ ∃ tail : Record,
      ([("player_", Val.vstr "ab"), ("player_id", Val.vstr "P1")] : Record) =
      [("player_", Val.vstr "ab"), ("player_id", Val.vstr "KEEP")] ++ tail := by
  refine ⟨by decide, ?_⟩
  rintro ⟨tail, h⟩
  simp at h

/-- C9 (amended): for every input batch the output batch has the same
number of records in the same order, and every record that does not already
carry a player_id column passes through with its fields' names, contents
and order unchanged, with exactly the single resolution field player_id
appended. -/
theorem claim_C9 (dict : List (String × Val)) (B B2 : List Record)
    (h : enrichBatch dict B = .ok B2) :
    B2.length = B.length ∧
    ∀ i, (hi : i < B.length) → (hi2 : i < B2.length) →
      ("player_id" ∉ (B[i]).map Prod.fst →
        ∃ v, B2[i] = B[i] ++ [("player_id", v)]) := by
  rcases enrichBatch_ok_spec dict B B2 h with ⟨hlen, hget⟩
  refine ⟨hlen, ?_⟩
  intro i hi hi2 hnc
  rcases enrichRecord_ok_append dict B[i] B2[i] hnc (hget i hi hi2) with
    ⟨cell, v, hf, hv, hok⟩
  exact ⟨v, hv⟩

/-- C9 (witness): a concrete two-row batch keeps its length, order and
payload fields, the appended player_id cells carrying the outcomes. -/
theorem claim_C9_witness :
    (([[("player_", Val.vstr "ab"), ("p", Val.vnum 3)],
       [("player_", Val.vnull)]] : List Record).length =
      ([[("player_", Val.vstr "ab"), ("p", Val.vnum 3), ("player_id", Val.vstr "P1")],
        [("player_", Val.vnull), ("player_id", Val.vnull)]] : List Record).length) ∧
    ∃ v, ([[("player_", Val.vstr "ab"), ("p", Val.vnum 3), ("player_id", Val.vstr "P1")],
        [("player_", Val.vnull), ("player_id", Val.vnull)]] : List Record)[0] =
      ([[("player_", Val.vstr "ab"), ("p", Val.vnum 3)],
        [("player_", Val.vnull)]] : List Record)[0] ++ [("player_id", v)] := by
  have h := claim_C9 [("ab", Val.vstr "P1")]
    [[("player_", Val.vstr "ab"), ("p", Val.vnum 3)], [("player_", Val.vnull)]]
    [[("player_", Val.vstr "ab"), ("p", Val.vnum 3), ("player_id", Val.vstr "P1")],
      [("player_", Val.vnull), ("player_id", Val.vnull)]]
    (by decide)
  exact ⟨h.1.symm, h.2 0 (by decide) (by decide) (by decide)⟩

/-- C10: for every non-null mention string and nonempty registry, the
fuzzy search returns one of the registry's keys, the identifier lookup on
that key cannot fail, and any non-null resolved identifier is one of the
registry's identifiers. -/
theorem claim_C10 (dict : List (String × Val)) (hne : dict ≠ []) (s : String) :
    (∃ m sc k, extractOne s (keys dict) = some (m, sc, k) ∧ m ∈ keys dict ∧
      ∃ v, pyDictGet dict m = some v) ∧
    (∃ v, get_player_id_fuzzy dict (.vstr s) = .ok v ∧
      (v = .vnull ∨ v ∈ dict.map Prod.snd)) := by
  refine ⟨?_, gpif_str_total dict hne s⟩
  cases dict with
  | nil => exact absurd rfl hne
  | cons p rest =>
    rcases extractOne_spec s p.1 (keys rest) with ⟨k, hk, heq, hmax, hfirst⟩
    have heq2 : extractOne s (keys (p :: rest)) =
        some ((p.1 :: keys rest)[k], token_sort_ratio s (p.1 :: keys rest)[k], k) := heq
    have hmem : (p.1 :: keys rest)[k] ∈ keys (p :: rest) :=
      extractOne_some_mem s (keys (p :: rest)) _ _ k heq2
    rcases pyDictGet_of_mem_keys (p :: rest) _ hmem with ⟨v, hv, hvm⟩
    exact ⟨_, _, k, heq2, hmem, v, hv⟩

/-- C10 (witness): a concrete nonempty registry and mention: the search
returns a registry key and the lookup succeeds. -/
theorem claim_C10_witness :
    (∃ m sc k, extractOne "zz" (keys [("ab", Val.vstr "P1")]) = some (m, sc, k) ∧
      m ∈ keys [("ab", Val.vstr "P1")] ∧
      ∃ v, pyDictGet [("ab", Val.vstr "P1")] m = some v) ∧
    (∃ v, get_player_id_fuzzy [("ab", Val.vstr "P1")] (.vstr "zz") = .ok v ∧
      (v = .vnull ∨ v ∈ ([("ab", Val.vstr "P1")] : List (String × Val)).map Prod.snd)) :=
  claim_C10 [("ab", Val.vstr "P1")] (by decide) "zz"

end Delfos
